import Mathlib

/-!
Verification of `spark-app/positional_index.py` (positional index builder).

The Python source is shallowly embedded below:
* bytes are modelled as `List Nat` (each element < 256 where produced);
* Python `str` is modelled by Lean `String` / `List Char`;
* `None`-able arguments are modelled by `Option`;
* exceptions are modelled by `Except`;
* the AES-GCM primitive (`Crypto.Cipher.AES`, mode GCM) is an external
  library call, so `decrypt_document` and the pipeline are parametrised by an
  arbitrary cipher function `Cipher`; every theorem below holds for all
  ciphers, which in particular captures control flow that never consults the
  cipher.
-/

set_option autoImplicit false

namespace PositionalIndex

/-! ### UTF-8 encoding (Python `str.encode('utf-8')`) -/

/-- UTF-8 encoding of a single code point (standard 1–4 byte forms). -/
def utf8EncodeChar (c : Char) : List Nat :=
  let n := c.toNat
  if n < 0x80 then [n]
  else if n < 0x800 then
    [0xC0 + n / 64, 0x80 + n % 64]
  else if n < 0x10000 then
    [0xE0 + n / 4096, 0x80 + (n / 64) % 64, 0x80 + n % 64]
  else
    [0xF0 + n / 262144, 0x80 + (n / 4096) % 64, 0x80 + (n / 64) % 64, 0x80 + n % 64]

/-- Python `s.encode('utf-8')`: concatenation of the code points' encodings. -/
def utf8Encode (s : String) : List Nat :=
  (s.data.map utf8EncodeChar).flatten

/-! ### `normalize_key` -/

/--
```python
def normalize_key(key_value: str) -> bytes:
    key_bytes = key_value.encode('utf-8')
    if len(key_bytes) < 32:
        key_bytes = key_bytes.ljust(32, b'0')
    return key_bytes[:32]
```
`b'0'` is the byte 48 (ASCII digit zero); `ljust` pads on the right.
-/
def normalize_key (key_value : String) : List Nat :=
  let key_bytes := utf8Encode key_value
  let key_bytes :=
    if key_bytes.length < 32 then
      key_bytes ++ List.replicate (32 - key_bytes.length) 48
    else key_bytes
  key_bytes.take 32

/-! ### Tokenizer (`tokenize_text`) -/

/-- A character matched by the regex class `[a-z0-9]`. -/
def isTokenChar (c : Char) : Bool :=
  (97 ≤ c.toNat && c.toNat ≤ 122) || (48 ≤ c.toNat && c.toNat ≤ 57)

/--
Python `str.lower()`, restricted to the ASCII range (uppercase `A`–`Z` maps
to `a`–`z`, everything else is unchanged).  Python additionally lowercases
non-ASCII uppercase letters; apart from exotic compatibility code points those
remain non-matching for `[a-z0-9]` either way, and every theorem below that
relates the tokens to the case-folded text is stated relative to this folding
function, so its conclusions are about the relationship the code establishes.
-/
def lowerChar (c : Char) : Char :=
  if 65 ≤ c.toNat && c.toNat ≤ 90 then Char.ofNat (c.toNat + 32) else c

/-- Scanner for `re.findall(r'[a-z0-9]+', ·)`: `acc` holds the (reversed)
run of `[a-z0-9]` characters read so far. -/
def runsAux : List Char → List Char → List (List Char)
  | [], acc => if acc.isEmpty then [] else [acc.reverse]
  | c :: rest, acc =>
    if isTokenChar c then runsAux rest (c :: acc)
    else if acc.isEmpty then runsAux rest []
    else acc.reverse :: runsAux rest []

/-- `re.findall(r'[a-z0-9]+', ·)`: the maximal runs of `[a-z0-9]` characters,
in order of occurrence. -/
def findRuns (l : List Char) : List (List Char) :=
  runsAux l []

/--
```python
def tokenize_text(text):
    if not text:
        return []
    tokens = re.findall(r'[a-z0-9]+', text.lower())
    return tokens
```
`not text` is true exactly for `None` and the empty string.
-/
def tokenize_text (text : Option String) : List String :=
  match text with
  | none => []
  | some s =>
    if s = "" then []
    else (findRuns (s.data.map lowerChar)).map fun cs => String.mk cs

/-! ### Positional index builder (`build_positional_index`)

Python uses a `dict` keyed by token.  A `dict` preserves insertion order and
has unique keys, so it is modelled as an association list with unique keys in
first-seen order.  The final `list(term_positions.items())` is the association
list itself. -/

/-- Lookup in the association list modelling the `term_positions` dict. -/
def lookupPos (m : List (String × List Nat)) (t : String) : Option (List Nat) :=
  match m with
  | [] => none
  | (k, v) :: rest => if k = t then some v else lookupPos rest t

/-- `term_positions[token].append(position)`: update the (unique) binding of
`t`, leaving every other binding unchanged. -/
def appendAt (m : List (String × List Nat)) (t : String) (p : Nat) :
    List (String × List Nat) :=
  match m with
  | [] => []
  | (k, v) :: rest =>
    if k = t then (k, v ++ [p]) :: rest else (k, v) :: appendAt rest t p

/-- Loop body:
```python
if token not in term_positions:
    term_positions[token] = []
term_positions[token].append(position)
``` -/
def addPos (m : List (String × List Nat)) (t : String) (p : Nat) :
    List (String × List Nat) :=
  appendAt (if (lookupPos m t).isSome then m else m ++ [(t, [])]) t p

/-- `for position, token in enumerate(tokens): ...` starting at position
`pos` with accumulated dict `m`. -/
def buildAux : List String → Nat → List (String × List Nat) →
    List (String × List Nat)
  | [], _, m => m
  | tok :: rest, pos, m => buildAux rest (pos + 1) (addPos m tok pos)

/--
```python
def build_positional_index(text):
    if not text:
        return []
    tokens = tokenize_text(text)
    term_positions = {}
    for position, token in enumerate(tokens):
        if token not in term_positions:
            term_positions[token] = []
        term_positions[token].append(position)
    result = [(term, positions) for term, positions in term_positions.items()]
    return result
```
-/
def build_positional_index (text : Option String) : List (String × List Nat) :=
  match text with
  | none => []
  | some s =>
    if s = "" then []
    else buildAux (tokenize_text (some s)) 0 []

/-! ### Hex decoding (Python `bytes.fromhex`) -/

/-- ASCII whitespace, skipped between byte pairs by `bytes.fromhex`. -/
def isAsciiSpace (c : Char) : Bool :=
  c.toNat = 32 || (9 ≤ c.toNat && c.toNat ≤ 13)

def isHexDigit (c : Char) : Bool :=
  (48 ≤ c.toNat && c.toNat ≤ 57) ||
  (97 ≤ c.toNat && c.toNat ≤ 102) ||
  (65 ≤ c.toNat && c.toNat ≤ 70)

def hexVal (c : Char) : Nat :=
  if c.toNat ≤ 57 then c.toNat - 48
  else if 97 ≤ c.toNat then c.toNat - 87
  else c.toNat - 55

/-- `bytes.fromhex`: ASCII whitespace may separate two-hex-digit byte pairs;
anything else (odd digit count, a non-hex character, whitespace inside a
pair) raises `ValueError`, modelled as `none`. -/
def fromhexAux : List Char → Option (List Nat)
  | [] => some []
  | c :: rest =>
    if isAsciiSpace c then fromhexAux rest
    else
      match rest with
      | [] => none
      | d :: rest2 =>
        if isHexDigit c && isHexDigit d then
          (fromhexAux rest2).map (fun bs => (hexVal c * 16 + hexVal d) :: bs)
        else none

def fromhex (s : String) : Option (List Nat) :=
  fromhexAux s.data

/-! ### UTF-8 decoding (Python `bytes.decode('utf-8')`, strict) -/

/-- Strict UTF-8 decoding: rejects unexpected/missing continuation bytes,
overlong encodings, surrogates and code points above `0x10FFFF`
(`UnicodeDecodeError`, modelled as `none`). -/
def utf8DecodeAux : List Nat → Option (List Char)
  | [] => some []
  | b1 :: rest =>
    if b1 < 0x80 then
      (utf8DecodeAux rest).map (fun cs => Char.ofNat b1 :: cs)
    else if b1 < 0xC2 then none
    else if b1 < 0xE0 then
      match rest with
      | b2 :: rest2 =>
        if 0x80 ≤ b2 && b2 < 0xC0 then
          (utf8DecodeAux rest2).map
            (fun cs => Char.ofNat ((b1 - 0xC0) * 64 + (b2 - 0x80)) :: cs)
        else none
      | [] => none
    else if b1 < 0xF0 then
      match rest with
      | b2 :: b3 :: rest3 =>
        if 0x80 ≤ b2 && b2 < 0xC0 && 0x80 ≤ b3 && b3 < 0xC0 then
          let n := (b1 - 0xE0) * 4096 + (b2 - 0x80) * 64 + (b3 - 0x80)
          if n < 0x800 || (0xD800 ≤ n && n ≤ 0xDFFF) then none
          else (utf8DecodeAux rest3).map (fun cs => Char.ofNat n :: cs)
        else none
      | _ => none
    else if b1 < 0xF5 then
      match rest with
      | b2 :: b3 :: b4 :: rest4 =>
        if 0x80 ≤ b2 && b2 < 0xC0 && 0x80 ≤ b3 && b3 < 0xC0 &&
            0x80 ≤ b4 && b4 < 0xC0 then
          let n := (b1 - 0xF0) * 262144 + (b2 - 0x80) * 4096 +
            (b3 - 0x80) * 64 + (b4 - 0x80)
          if n < 0x10000 || 0x110000 ≤ n then none
          else (utf8DecodeAux rest4).map (fun cs => Char.ofNat n :: cs)
        else none
      | _ => none
    else none

def utf8Decode (bs : List Nat) : Option String :=
  (utf8DecodeAux bs).map String.mk

/-! ### `decrypt_document` -/

/-- Error classes raised by `decrypt_document`:
`hexError` is the `ValueError` raised by `bytes.fromhex`, `authError` the
`ValueError` raised by `decrypt_and_verify` on tag mismatch, `unicodeError`
the `UnicodeDecodeError` raised by `plaintext.decode('utf-8')`. -/
inductive DecErr
  | hexError
  | authError
  | unicodeError
deriving DecidableEq, Repr

/-- The AES-256-GCM primitive (`AES.new(key, AES.MODE_GCM, nonce=...)`
followed by `decrypt_and_verify(ciphertext, tag)` with empty associated
data): key bytes → nonce bytes → ciphertext bytes → tag bytes → plaintext
bytes, or a tag-verification failure.  The library call is external to the
repository, so every theorem below is parametric in it. -/
def Cipher : Type :=
  List Nat → List Nat → List Nat → List Nat → Except Unit (List Nat)

/--
```python
def decrypt_document(encrypted_hex, iv_hex, auth_tag_hex, key_bytes):
    if not encrypted_hex or not iv_hex or not auth_tag_hex:
        return ''
    cipher = AES.new(key_bytes, AES.MODE_GCM, nonce=bytes.fromhex(iv_hex))
    cipher.update(b'')
    plaintext = cipher.decrypt_and_verify(bytes.fromhex(encrypted_hex),
                                          bytes.fromhex(auth_tag_hex))
    return plaintext.decode('utf-8')
```
The three hex arguments come from database columns and may be `NULL`
(`Option`); `not x` is true for `None` and for `''`.  Python evaluates
`bytes.fromhex(iv_hex)` first (inside `AES.new`) and then the two argument
expressions of `decrypt_and_verify` left to right, all before any
authentication. -/
def decrypt_document (cipher : Cipher) (encrypted_hex iv_hex auth_tag_hex :
    Option String) (key_bytes : List Nat) : Except DecErr String :=
  if encrypted_hex.getD "" = "" ∨ iv_hex.getD "" = "" ∨
      auth_tag_hex.getD "" = "" then
    .ok ""
  else
    match fromhex (iv_hex.getD "") with
    | none => .error .hexError
    | some nonce =>
      match fromhex (encrypted_hex.getD "") with
      | none => .error .hexError
      | some ct =>
        match fromhex (auth_tag_hex.getD "") with
        | none => .error .hexError
        | some tag =>
          match cipher key_bytes nonce ct tag with
          | .error _ => .error .authError
          | .ok plaintext =>
            match utf8Decode plaintext with
            | none => .error .unicodeError
            | some s => .ok s

/-! ### Pipeline driver (`main`)

`main` reads rows `(doc_id, encrypted_content, iv, auth_tag)` from the
`documents` table, decrypts them through a Spark UDF, filters out empty
content, builds the per-document positional index, and finally clears and
repopulates the `positional_index` table.  The model abstracts the I/O
boundaries: the input rows are a list, and the output records whether the
write phase ran (`DELETE FROM positional_index` + bulk insert) and which rows
it inserted.  Spark laziness only affects when the decryption UDF runs
(at `docs.count()`), not its result, so decryption is evaluated eagerly; a
UDF exception fails the job, is caught by the driver's `except` block and
reaches the write phase never. -/

structure DocRow where
  doc_id : Nat
  encrypted_content : Option String
  iv : Option String
  auth_tag : Option String

/-- How a run of `main` ends.  Only `missingKey` escapes `main` as an
exception (the `RuntimeError` raised before the `try` block); every other
outcome returns normally. -/
inductive RunOutcome
  | missingKey
  | emptyCollection
  | noDecryptable
  | errored
  | completed
deriving DecidableEq, Repr

structure RunResult where
  outcome : RunOutcome
  /-- whether `DELETE FROM positional_index` was executed -/
  deletedIndex : Bool
  /-- the `(term, doc_id, positions)` rows passed to the bulk insert -/
  inserted : List (String × Nat × List Nat)
deriving DecidableEq, Repr

/--
```python
def decrypt_with_key(encrypted, iv_value, auth_tag_value):
    try:
        return decrypt_document(encrypted, iv_value, auth_tag_value, aes_key)
    except Exception as exc:
        raise RuntimeError(...) from exc
```
(the re-raise keeps failure a failure, so the error class is irrelevant to
control flow). -/
def decrypt_with_key (cipher : Cipher) (aes_key : List Nat) (row : DocRow) :
    Except DecErr String :=
  decrypt_document cipher row.encrypted_content row.iv row.auth_tag aes_key

/-- Runs the decryption UDF over every row; the first exception fails the
whole Spark job. -/
def decryptAll (cipher : Cipher) (aes_key : List Nat) :
    List DocRow → Except DecErr (List String)
  | [] => .ok []
  | row :: rest =>
    match decrypt_with_key cipher aes_key row with
    | .error e => .error e
    | .ok s =>
      match decryptAll cipher aes_key rest with
      | .error e => .error e
      | .ok ss => .ok (s :: ss)

/-- The driver `main()`, given the `ENCRYPTION_KEY` environment variable
(`none` when unset) and the rows of the `documents` table. -/
def runPipeline (cipher : Cipher) (encryption_key : Option String)
    (documents : List DocRow) : RunResult :=
  if encryption_key.getD "" = "" then
    ⟨.missingKey, false, []⟩
  else
    let aes_key := normalize_key (encryption_key.getD "")
    if documents.length = 0 then
      ⟨.emptyCollection, false, []⟩
    else
      match decryptAll cipher aes_key documents with
      | .error _ => ⟨.errored, false, []⟩
      | .ok contents =>
        let docs := (documents.zip contents).filter fun dc => dc.2 ≠ ""
        if docs.length = 0 then
          ⟨.noDecryptable, false, []⟩
        else
          let rows := docs.flatMap fun dc =>
            (build_positional_index (some dc.2)).map fun tp =>
              (tp.1, dc.1.doc_id, tp.2)
          ⟨.completed, true, rows⟩

/-! ## Lemmas about the scanner -/

theorem runsAux_acc (l : List Char) : ∀ acc : List Char, acc ≠ [] →
    runsAux l acc =
      (acc.reverse ++ l.takeWhile isTokenChar) ::
        runsAux (l.dropWhile isTokenChar) [] := by
  induction l with
  | nil =>
    intro acc hacc
    simp [runsAux, List.isEmpty_iff, hacc]
  | cons c rest ih =>
    intro acc hacc
    by_cases hc : isTokenChar c
    · rw [List.takeWhile_cons_of_pos hc, List.dropWhile_cons_of_pos hc]
      have h1 : runsAux (c :: rest) acc = runsAux rest (c :: acc) := by
        simp [runsAux, hc]
      rw [h1, ih (c :: acc) (List.cons_ne_nil c acc)]
      simp
    · rw [List.takeWhile_cons_of_neg hc, List.dropWhile_cons_of_neg hc]
      show runsAux (c :: rest) acc = (acc.reverse ++ []) :: runsAux (c :: rest) []
      simp only [runsAux, if_neg hc, List.isEmpty_iff, List.append_nil]
      rw [if_neg hacc]
      simp

theorem findRuns_nil : findRuns [] = [] := rfl

theorem findRuns_cons_neg {c : Char} {rest : List Char}
    (hc : isTokenChar c = false) : findRuns (c :: rest) = findRuns rest := by
  simp [findRuns, runsAux, hc]

theorem findRuns_cons_pos {c : Char} {rest : List Char}
    (hc : isTokenChar c = true) :
    findRuns (c :: rest) =
      (c :: rest.takeWhile isTokenChar) ::
        findRuns (rest.dropWhile isTokenChar) := by
  show runsAux (c :: rest) [] = _
  simp only [runsAux, if_pos hc]
  rw [runsAux_acc rest [c] (List.cons_ne_nil c [])]
  rfl

theorem dropWhile_head_false {α : Type} {p : α → Bool} :
    ∀ (l : List α) (c : α) (r : List α), l.dropWhile p = c :: r → p c = false := by
  intro l
  induction l with
  | nil => intro c r h; simp [List.dropWhile] at h
  | cons a rest ih =>
    intro c r h
    by_cases ha : p a
    · rw [List.dropWhile_cons_of_pos ha] at h
      exact ih c r h
    · rw [List.dropWhile_cons_of_neg ha] at h
      cases h
      simpa using ha

/-! ## C5: maximal-run decomposition

`RunDecomp l ts` states that `ts` is, in order, the list of maximal runs of
`[a-z0-9]` characters of `l`: `l` splits as alternating separator-only gaps
and the runs of `ts`, every run is nonempty and made of `[a-z0-9]`
characters only, and no run can be extended to the right (the characters
following each run, if any, start with a non-run character); together with
the gap before each run being separator-only, no run can be extended to the
left either. -/

inductive RunDecomp : List Char → List (List Char) → Prop
  | last (g : List Char) (hg : ∀ c ∈ g, isTokenChar c = false) : RunDecomp g []
  | more (g t rest : List Char) (ts : List (List Char))
      (hg : ∀ c ∈ g, isTokenChar c = false)
      (ht : t ≠ []) (htok : ∀ c ∈ t, isTokenChar c = true)
      (hmax : ∀ c r, rest = c :: r → isTokenChar c = false)
      (hrest : RunDecomp rest ts) :
      RunDecomp (g ++ (t ++ rest)) (t :: ts)

theorem RunDecomp.consSep {l : List Char} {ts : List (List Char)} (c : Char)
    (hc : isTokenChar c = false) (h : RunDecomp l ts) :
    RunDecomp (c :: l) ts := by
  match l, ts, h with
  | _, _, .last g hg =>
    exact .last (c :: g) (by
      intro x hx
      rcases List.mem_cons.mp hx with rfl | hx
      · exact hc
      · exact hg x hx)
  | _, _, .more g t rest ts hg ht htok hmax hrest =>
    have heq : c :: (g ++ (t ++ rest)) = (c :: g) ++ (t ++ rest) := rfl
    rw [heq]
    exact .more (c :: g) t rest ts (by
      intro x hx
      rcases List.mem_cons.mp hx with rfl | hx
      · exact hc
      · exact hg x hx) ht htok hmax hrest

theorem runDecomp_findRuns_aux (n : Nat) :
    ∀ l : List Char, l.length ≤ n → RunDecomp l (findRuns l) := by
  induction n with
  | zero =>
    intro l hl
    have : l = [] := List.eq_nil_of_length_eq_zero (Nat.le_zero.mp hl)
    subst this
    rw [findRuns_nil]
    exact .last [] (by simp)
  | succ n ih =>
    intro l hl
    match l with
    | [] =>
      rw [findRuns_nil]
      exact .last [] (by simp)
    | c :: rest =>
      by_cases hc : isTokenChar c
      · rw [findRuns_cons_pos hc]
        have hsplit : c :: rest =
            [] ++ ((c :: rest.takeWhile isTokenChar) ++
              rest.dropWhile isTokenChar) := by
          simp [List.takeWhile_append_dropWhile]
        rw [hsplit]
        refine .more [] _ _ _ (by simp) (List.cons_ne_nil _ _) ?_ ?_ ?_
        · intro x hx
          rcases List.mem_cons.mp hx with rfl | hx
          · exact hc
          · exact List.mem_takeWhile_imp hx
        · intro x r hx
          exact dropWhile_head_false rest x r hx
        · refine ih _ ?_
          have h1 : (rest.dropWhile isTokenChar).length ≤ rest.length :=
            (List.dropWhile_suffix _).sublist.length_le
          have h2 : rest.length ≤ n := Nat.le_of_succ_le_succ hl
          exact Nat.le_trans h1 h2
      · rw [findRuns_cons_neg (by simpa using hc)]
        exact (ih rest (Nat.le_of_succ_le_succ hl)).consSep c (by simpa using hc)

theorem runDecomp_findRuns (l : List Char) : RunDecomp l (findRuns l) :=
  runDecomp_findRuns_aux l.length l (Nat.le_refl _)

/-! ## Lemmas about the positional-index association list -/

/-- Occurrence positions of token `t` in `toks`, counting from `pos`:
the spec-side description of a position list. -/
def occs : List String → Nat → String → List Nat
  | [], _, _ => []
  | tok :: rest, pos, t =>
    if tok = t then pos :: occs rest (pos + 1) t
    else occs rest (pos + 1) t

theorem lookupPos_appendAt_self (m : List (String × List Nat)) (t : String)
    (p : Nat) :
    lookupPos (appendAt m t p) t = (lookupPos m t).map (fun v => v ++ [p]) := by
  induction m with
  | nil => rfl
  | cons e rest ih =>
    obtain ⟨k, v⟩ := e
    by_cases hk : k = t
    · simp [appendAt, lookupPos, hk]
    · simp [appendAt, lookupPos, hk, ih]

theorem lookupPos_appendAt_ne (m : List (String × List Nat)) {t u : String}
    (p : Nat) (h : u ≠ t) :
    lookupPos (appendAt m t p) u = lookupPos m u := by
  induction m with
  | nil => rfl
  | cons e rest ih =>
    obtain ⟨k, v⟩ := e
    by_cases hk : k = t
    · subst hk
      simp [appendAt, lookupPos, Ne.symm h]
    · by_cases hu : k = u
      · simp [appendAt, lookupPos, hk, hu, h]
      · simp [appendAt, lookupPos, hk, hu, ih]

theorem lookupPos_append (m m2 : List (String × List Nat)) (t : String) :
    lookupPos (m ++ m2) t =
      match lookupPos m t with
      | some v => some v
      | none => lookupPos m2 t := by
  induction m with
  | nil => rfl
  | cons e rest ih =>
    obtain ⟨k, v⟩ := e
    by_cases hk : k = t
    · simp [lookupPos, hk]
    · simp [lookupPos, hk, ih]

theorem lookupPos_addPos_self (m : List (String × List Nat)) (t : String)
    (p : Nat) :
    lookupPos (addPos m t p) t = some ((lookupPos m t).getD [] ++ [p]) := by
  unfold addPos
  cases h : lookupPos m t with
  | some v =>
    simp [h, lookupPos_appendAt_self]
  | none =>
    rw [if_neg (by simp [h])]
    rw [lookupPos_appendAt_self, lookupPos_append, h]
    simp [lookupPos]

theorem lookupPos_addPos_ne (m : List (String × List Nat)) {t u : String}
    (p : Nat) (h : u ≠ t) :
    lookupPos (addPos m t p) u = lookupPos m u := by
  unfold addPos
  by_cases hm : (lookupPos m t).isSome = true
  · rw [if_pos hm, lookupPos_appendAt_ne m p h]
  · rw [if_neg hm, lookupPos_appendAt_ne _ p h, lookupPos_append]
    cases hu : lookupPos m u with
    | some v => rfl
    | none => simp [lookupPos, Ne.symm h]

/-- Master lemma: what the scan loop adds to each binding. -/
theorem lookupPos_buildAux (toks : List String) :
    ∀ (pos : Nat) (m : List (String × List Nat)) (t : String),
      lookupPos (buildAux toks pos m) t =
        match lookupPos m t with
        | some v => some (v ++ occs toks pos t)
        | none =>
          if occs toks pos t = [] then none else some (occs toks pos t) := by
  induction toks with
  | nil =>
    intro pos m t
    cases h : lookupPos m t <;> simp [buildAux, occs, h]
  | cons tok rest ih =>
    intro pos m t
    show lookupPos (buildAux rest (pos + 1) (addPos m tok pos)) t = _
    rw [ih (pos + 1) (addPos m tok pos) t]
    by_cases htok : tok = t
    · subst htok
      rw [lookupPos_addPos_self]
      cases h : lookupPos m tok with
      | some v => simp [occs, h]
      | none => simp [occs, h]
    · rw [lookupPos_addPos_ne m pos (Ne.symm htok)]
      cases h : lookupPos m t <;> simp [occs, htok, h]

def keysOf (m : List (String × List Nat)) : List String :=
  m.map Prod.fst

theorem keysOf_appendAt (m : List (String × List Nat)) (t : String) (p : Nat) :
    keysOf (appendAt m t p) = keysOf m := by
  induction m with
  | nil => rfl
  | cons e rest ih =>
    obtain ⟨k, v⟩ := e
    by_cases hk : k = t
    · simp [appendAt, keysOf, hk]
    · rw [appendAt, if_neg hk]
      have h2 : keysOf ((k, v) :: appendAt rest t p) =
          k :: keysOf (appendAt rest t p) := rfl
      rw [h2, ih]
      rfl

theorem lookupPos_isSome_iff (m : List (String × List Nat)) (t : String) :
    (lookupPos m t).isSome = true ↔ t ∈ keysOf m := by
  induction m with
  | nil => simp [lookupPos, keysOf]
  | cons e rest ih =>
    obtain ⟨k, v⟩ := e
    have hkeys : keysOf ((k, v) :: rest) = k :: keysOf rest := rfl
    rw [hkeys, List.mem_cons]
    by_cases hk : k = t
    · subst hk
      simp [lookupPos]
    · rw [lookupPos, if_neg hk, ih]
      constructor
      · exact Or.inr
      · intro h
        rcases h with h | h
        · exact absurd h.symm hk
        · exact h

theorem keysOf_addPos_nodup (m : List (String × List Nat)) (t : String)
    (p : Nat) (h : (keysOf m).Nodup) : (keysOf (addPos m t p)).Nodup := by
  unfold addPos
  by_cases hm : (lookupPos m t).isSome = true
  · rw [if_pos hm, keysOf_appendAt]
    exact h
  · rw [if_neg hm, keysOf_appendAt]
    have ht : t ∉ keysOf m := fun hmem =>
      hm ((lookupPos_isSome_iff m t).mpr hmem)
    have : keysOf (m ++ [(t, [])]) = keysOf m ++ [t] := by
      simp [keysOf]
    rw [this, List.nodup_append]
    exact ⟨h, List.nodup_singleton t, by
      intro x hx hx2
      rw [List.mem_singleton] at hx2
      subst hx2
      exact ht hx⟩

theorem keysOf_buildAux_nodup (toks : List String) :
    ∀ (pos : Nat) (m : List (String × List Nat)),
      (keysOf m).Nodup → (keysOf (buildAux toks pos m)).Nodup := by
  induction toks with
  | nil => intro pos m h; exact h
  | cons tok rest ih =>
    intro pos m h
    exact ih (pos + 1) (addPos m tok pos) (keysOf_addPos_nodup m tok pos h)

theorem mem_of_lookupPos (m : List (String × List Nat)) (t : String)
    (v : List Nat) (h : lookupPos m t = some v) : (t, v) ∈ m := by
  induction m with
  | nil => simp [lookupPos] at h
  | cons e rest ih =>
    obtain ⟨k, w⟩ := e
    by_cases hk : k = t
    · subst hk
      simp [lookupPos] at h
      subst h
      exact List.mem_cons_self _ _
    · rw [lookupPos, if_neg hk] at h
      exact List.mem_cons_of_mem _ (ih h)

theorem lookupPos_of_mem (m : List (String × List Nat))
    (hnd : (keysOf m).Nodup) (t : String) (v : List Nat)
    (h : (t, v) ∈ m) : lookupPos m t = some v := by
  induction m with
  | nil => simp at h
  | cons e rest ih =>
    obtain ⟨k, w⟩ := e
    have hnd2 : (keysOf rest).Nodup := by
      simpa [keysOf] using hnd.of_cons
    rcases List.mem_cons.mp h with heq | hmem
    · injection heq with h1 h2
      subst h1
      subst h2
      rw [lookupPos, if_pos rfl]
    · have hk : k ≠ t := by
        intro hk
        subst hk
        have : k ∈ keysOf rest := by
          simpa [keysOf] using List.mem_map_of_mem Prod.fst hmem
        rw [keysOf, List.map_cons] at hnd
        exact (List.nodup_cons.mp hnd).1 this
      rw [lookupPos, if_neg hk]
      exact ih hnd2 hmem

/-! ## Properties of `occs` -/

theorem occs_length (toks : List String) :
    ∀ (pos : Nat) (t : String),
      (occs toks pos t).length = toks.count t := by
  induction toks with
  | nil => intro pos t; simp [occs]
  | cons tok rest ih =>
    intro pos t
    by_cases h : tok = t <;>
      simp [occs, h, List.count_cons, ih (pos + 1) t]

theorem occs_ge (toks : List String) :
    ∀ (pos : Nat) (t : String) (q : Nat), q ∈ occs toks pos t → pos ≤ q := by
  induction toks with
  | nil => intro pos t q h; simp [occs] at h
  | cons tok rest ih =>
    intro pos t q h
    by_cases htok : tok = t
    · rw [occs, if_pos htok] at h
      rcases List.mem_cons.mp h with rfl | h
      · exact Nat.le_refl q
      · exact Nat.le_of_succ_le (ih (pos + 1) t q h)
    · rw [occs, if_neg htok] at h
      exact Nat.le_of_succ_le (ih (pos + 1) t q h)

theorem occs_chain (toks : List String) :
    ∀ (pos : Nat) (t : String), List.Chain' (· < ·) (occs toks pos t) := by
  induction toks with
  | nil => intro pos t; simp [occs]
  | cons tok rest ih =>
    intro pos t
    by_cases htok : tok = t
    · rw [occs, if_pos htok, List.chain'_cons']
      refine ⟨?_, ih (pos + 1) t⟩
      intro y hy
      have : pos + 1 ≤ y :=
        occs_ge rest (pos + 1) t y (List.mem_of_mem_head? hy)
      omega
    · rw [occs, if_neg htok]
      exact ih (pos + 1) t

theorem mem_occs_of_get (toks : List String) :
    ∀ (pos i : Nat) (t : String), toks[i]? = some t →
      pos + i ∈ occs toks pos t := by
  induction toks with
  | nil => intro pos i t h; simp at h
  | cons tok rest ih =>
    intro pos i t h
    match i with
    | 0 =>
      rw [List.getElem?_cons_zero] at h
      injection h with h
      subst h
      rw [occs, if_pos rfl]
      exact List.mem_cons_self _ _
    | i + 1 =>
      rw [List.getElem?_cons_succ] at h
      have := ih (pos + 1) i t h
      have harith : pos + 1 + i = pos + (i + 1) := by omega
      rw [harith] at this
      by_cases htok : tok = t
      · rw [occs, if_pos htok]
        exact List.mem_cons_of_mem _ this
      · rw [occs, if_neg htok]
        exact this

theorem get_of_mem_occs (toks : List String) :
    ∀ (pos : Nat) (t : String) (q : Nat), q ∈ occs toks pos t →
      ∃ i, q = pos + i ∧ toks[i]? = some t := by
  induction toks with
  | nil => intro pos t q h; simp [occs] at h
  | cons tok rest ih =>
    intro pos t q h
    by_cases htok : tok = t
    · rw [occs, if_pos htok] at h
      rcases List.mem_cons.mp h with rfl | h
      · exact ⟨0, by omega, by rw [List.getElem?_cons_zero, htok]⟩
      · obtain ⟨i, hi, hget⟩ := ih (pos + 1) t q h
        exact ⟨i + 1, by omega, by rw [List.getElem?_cons_succ]; exact hget⟩
    · rw [occs, if_neg htok] at h
      obtain ⟨i, hi, hget⟩ := ih (pos + 1) t q h
      exact ⟨i + 1, by omega, by rw [List.getElem?_cons_succ]; exact hget⟩

/-! ## Shared facts about `build_positional_index` -/

theorem lookupPos_build (s : String) (hs : ¬ s = "") (t : String) :
    lookupPos (build_positional_index (some s)) t =
      if occs (tokenize_text (some s)) 0 t = [] then none
      else some (occs (tokenize_text (some s)) 0 t) := by
  have hb : build_positional_index (some s) =
      buildAux (tokenize_text (some s)) 0 [] := by
    simp [build_positional_index, hs]
  rw [hb, lookupPos_buildAux]
  rfl

theorem build_keys_nodup (s : String) (hs : ¬ s = "") :
    (keysOf (build_positional_index (some s))).Nodup := by
  have hb : build_positional_index (some s) =
      buildAux (tokenize_text (some s)) 0 [] := by
    simp [build_positional_index, hs]
  rw [hb]
  exact keysOf_buildAux_nodup _ 0 [] (by simp [keysOf])

theorem mem_build_eq (s : String) (hs : ¬ s = "") (e : String × List Nat)
    (he : e ∈ build_positional_index (some s)) :
    e.2 = occs (tokenize_text (some s)) 0 e.1 := by
  obtain ⟨t, v⟩ := e
  have hlk := lookupPos_of_mem _ (build_keys_nodup s hs) t v he
  rw [lookupPos_build s hs t] at hlk
  by_cases hocc : occs (tokenize_text (some s)) 0 t = []
  · rw [if_pos hocc] at hlk
    exact absurd hlk (by simp)
  · rw [if_neg hocc] at hlk
    injection hlk with hlk
    exact hlk.symm

/-! ## Claim theorems -/

/-- Claim C1, counterexample: the claim says short secrets are right-padded
with the zero byte `0x00`; on the code, the secret `"abcde"` (5 bytes when
encoded) yields a key whose last 27 bytes are all the byte 48 (`0x30`, the
ASCII character `'0'` of the literal `b'0'`), not the zero byte. -/
theorem normalize_key_zero_pad_counterexample :
    (normalize_key "abcde").drop 5 = List.replicate 27 48 ∧
    (normalize_key "abcde").drop 5 ≠ List.replicate 27 0 := by
  exact ⟨by decide, by decide⟩

/-- Claim C1 (amended): `normalize_key` encodes the secret as UTF-8 bytes;
if the encoding is shorter than 32 bytes it right-pads with the byte
`0x30` (ASCII `'0'`) to exactly 32 bytes, and if it is 32 bytes or longer it
truncates to the first 32 bytes; the result always has exactly 32 bytes. -/
theorem normalize_key_spec (s : String) :
    (normalize_key s).length = 32 ∧
    ((utf8Encode s).length < 32 →
      normalize_key s =
        utf8Encode s ++ List.replicate (32 - (utf8Encode s).length) 48) ∧
    (32 ≤ (utf8Encode s).length →
      normalize_key s = (utf8Encode s).take 32) := by
  have hdef : normalize_key s =
      (if (utf8Encode s).length < 32 then
        utf8Encode s ++ List.replicate (32 - (utf8Encode s).length) 48
      else utf8Encode s).take 32 := rfl
  by_cases h : (utf8Encode s).length < 32
  · rw [hdef, if_pos h]
    have hlen : (utf8Encode s ++
        List.replicate (32 - (utf8Encode s).length) 48).length = 32 := by
      simp
      omega
    have htake : (utf8Encode s ++
        List.replicate (32 - (utf8Encode s).length) 48).take 32 =
        utf8Encode s ++ List.replicate (32 - (utf8Encode s).length) 48 :=
      List.take_of_length_le (by omega)
    rw [htake]
    exact ⟨hlen, fun _ => rfl, fun h32 => absurd h (by omega)⟩
  · rw [hdef, if_neg h]
    refine ⟨?_, fun hlt => absurd hlt h, fun _ => rfl⟩
    rw [List.length_take]
    omega

/-- Claim C1 (amended), witness: the length-5 secret `"abcde"` is padded
with 27 bytes `0x30`; a 50-character secret is truncated to the first 32
bytes of its encoding. -/
theorem normalize_key_spec_witness :
    (utf8Encode "abcde").length < 32 ∧
    normalize_key "abcde" =
      utf8Encode "abcde" ++
        List.replicate (32 - (utf8Encode "abcde").length) 48 ∧
    32 ≤ (utf8Encode (String.mk (List.replicate 50 'a'))).length ∧
    normalize_key (String.mk (List.replicate 50 'a')) =
      (utf8Encode (String.mk (List.replicate 50 'a'))).take 32 :=
  ⟨by decide, (normalize_key_spec "abcde").2.1 (by decide), by decide,
    (normalize_key_spec (String.mk (List.replicate 50 'a'))).2.2 (by decide)⟩

/-- Claim C8: `normalize_key` is not injective: the distinct secrets
`"abc"` and `"abc0"` normalize to the same 32-byte key, because short
secrets are padded with the ASCII character `'0'` (the byte 48 = `0x30`,
as the third conjunct records). -/
theorem normalize_key_not_injective :
    normalize_key "abc" = normalize_key "abc0" ∧
    ("abc" : String) ≠ "abc0" ∧
    utf8Encode "0" = [48] := by
  exact ⟨by decide, by decide, by decide⟩

/-- Claim C3: the tokenizer maps empty and absent input to the empty
sequence (it is a total function, so no error is possible), and
`tokenize("Hello, World! 123")` is exactly `["hello", "world", "123"]`. -/
theorem tokenize_text_examples :
    tokenize_text none = [] ∧ tokenize_text (some "") = [] ∧
    tokenize_text (some "Hello, World! 123") = ["hello", "world", "123"] := by
  exact ⟨rfl, by decide, by decide⟩

/-- Claim C6: the tokenizer is deterministic and pure: it is modelled as a
total Lean function (the Python body only calls `str.lower` and
`re.findall` with a constant pattern, touching no external state), so equal
inputs give equal outputs. -/
theorem tokenize_text_deterministic (t1 t2 : Option String) (h : t1 = t2) :
    tokenize_text t1 = tokenize_text t2 := by
  rw [h]

/-- Claim C6, witness: two calls on the identical input agree. -/
theorem tokenize_text_deterministic_witness :
    tokenize_text (some "Hello, World! 123") =
      tokenize_text (some "Hello, World! 123") :=
  tokenize_text_deterministic (some "Hello, World! 123")
    (some "Hello, World! 123") rfl

/-- Claim C2: for every input text, every term of the positional index has
a position list whose length is the number of occurrences of that term in
the token sequence and whose positions are strictly increasing; an empty
token sequence yields an empty mapping. -/
theorem build_positional_index_counts (text : Option String) :
    (∀ e ∈ build_positional_index text,
      e.2.length = (tokenize_text text).count e.1 ∧
      List.Chain' (· < ·) e.2) ∧
    (tokenize_text text = [] → build_positional_index text = []) := by
  match text with
  | none =>
    exact ⟨by simp [build_positional_index], fun _ => rfl⟩
  | some s =>
    by_cases hs : s = ""
    · subst hs
      exact ⟨by simp [build_positional_index], fun _ => rfl⟩
    · constructor
      · intro e he
        rw [mem_build_eq s hs e he]
        exact ⟨occs_length _ 0 e.1, occs_chain _ 0 e.1⟩
      · intro h
        simp [build_positional_index, hs, h, buildAux]

/-- Claim C2, witness: on the text `"a b a c a"` (token sequence
`["a","b","a","c","a"]`) the entry for `"a"` has the 3 strictly increasing
positions `[0, 2, 4]`; a text with no tokens yields the empty mapping. -/
theorem build_positional_index_counts_witness :
    (("a", [0, 2, 4]) ∈ build_positional_index (some "a b a c a") ∧
      ([0, 2, 4] : List Nat).length =
        (tokenize_text (some "a b a c a")).count "a" ∧
      List.Chain' (· < ·) ([0, 2, 4] : List Nat)) ∧
    build_positional_index (some "... !") = [] :=
  ⟨⟨by decide,
    ((build_positional_index_counts (some "a b a c a")).1
      ("a", [0, 2, 4]) (by decide)).1,
    ((build_positional_index_counts (some "a b a c a")).1
      ("a", [0, 2, 4]) (by decide)).2⟩,
    (build_positional_index_counts (some "... !")).2 (by decide)⟩

/-- Claim C9: the position lists partition the token positions: every
position `i` below the token-sequence length lies in exactly one term's
position list, and no position at or beyond that length lies in any list. -/
theorem build_positional_index_partition (text : Option String) (i : Nat) :
    (i < (tokenize_text text).length →
      ∃ e, e ∈ build_positional_index text ∧ i ∈ e.2 ∧
        ∀ e2 ∈ build_positional_index text, i ∈ e2.2 → e2 = e) ∧
    ((tokenize_text text).length ≤ i →
      ∀ e ∈ build_positional_index text, i ∉ e.2) := by
  match text with
  | none =>
    exact ⟨fun h => absurd h (by simp [tokenize_text]),
      fun _ e he => absurd he (by simp [build_positional_index])⟩
  | some s =>
    by_cases hs : s = ""
    · subst hs
      exact ⟨fun h => absurd h (by simp [tokenize_text]),
        fun _ e he => absurd he (by simp [build_positional_index])⟩
    · constructor
      · intro hi
        have hne : (tokenize_text (some s))[i]? ≠ none := by
          intro hnone
          rw [List.getElem?_eq_none_iff] at hnone
          omega
        obtain ⟨t, ht⟩ := Option.ne_none_iff_exists'.mp hne
        have hmem : i ∈ occs (tokenize_text (some s)) 0 t := by
          have := mem_occs_of_get (tokenize_text (some s)) 0 i t ht
          simpa using this
        have hocc : ¬ occs (tokenize_text (some s)) 0 t = [] := by
          intro hnil
          rw [hnil] at hmem
          simp at hmem
        have hlk : lookupPos (build_positional_index (some s)) t =
            some (occs (tokenize_text (some s)) 0 t) := by
          rw [lookupPos_build s hs t, if_neg hocc]
        refine ⟨(t, occs (tokenize_text (some s)) 0 t),
          mem_of_lookupPos _ _ _ hlk, hmem, ?_⟩
        intro e2 he2 hi2
        have he2eq := mem_build_eq s hs e2 he2
        rw [he2eq] at hi2
        obtain ⟨j, hj, hget⟩ :=
          get_of_mem_occs (tokenize_text (some s)) 0 e2.1 i hi2
        have hji : j = i := by omega
        subst hji
        rw [ht] at hget
        injection hget with hget
        exact Prod.ext hget.symm (by rw [he2eq, hget])
      · intro hi e he hmem
        rw [mem_build_eq s hs e he] at hmem
        obtain ⟨j, hj, hget⟩ :=
          get_of_mem_occs (tokenize_text (some s)) 0 e.1 i hmem
        obtain ⟨hlt, -⟩ := List.getElem?_eq_some_iff.mp hget
        omega

/-- Claim C9, witness: in `"a b a c a"` (5 tokens), position 3 lies in
exactly one term's list (namely `"c"`'s). -/
theorem build_positional_index_partition_witness :
    ∃ e, e ∈ build_positional_index (some "a b a c a") ∧ 3 ∈ e.2 ∧
      ∀ e2 ∈ build_positional_index (some "a b a c a"), 3 ∈ e2.2 → e2 = e :=
  (build_positional_index_partition (some "a b a c a") 3).1 (by decide)

/-- Claim C5: tokenization of a text decomposes its case-folded character
sequence into the maximal runs of lowercase-ASCII-letter/digit characters,
in order: `RunDecomp` states that the folded text splits into alternating
separator-only gaps (discarded) and exactly the produced tokens, each
nonempty, consisting only of `[a-z0-9]` characters, and extendable in
neither direction. -/
theorem tokenize_text_maximal_runs (s : String) :
    RunDecomp (s.data.map lowerChar)
      ((tokenize_text (some s)).map String.data) := by
  by_cases hs : s = ""
  · subst hs
    exact .last [] (by simp)
  · have h1 : tokenize_text (some s) =
        (findRuns (s.data.map lowerChar)).map (fun cs => String.mk cs) := by
      simp [tokenize_text, hs]
    rw [h1, List.map_map]
    have h2 : (String.data ∘ fun cs => String.mk cs) = id := rfl
    rw [h2, List.map_id]
    exact runDecomp_findRuns _

/-- Claim C4: whenever any of ciphertext, nonce or tag is missing (`none`)
or empty, `decrypt_document` returns the empty string and raises nothing
(every failure would be an `Except.error`; the result is `Except.ok ""`),
for every cipher and key. -/
theorem decrypt_document_empty_component (cipher : Cipher)
    (enc iv tag : Option String) (key : List Nat)
    (h : enc.getD "" = "" ∨ iv.getD "" = "" ∨ tag.getD "" = "") :
    decrypt_document cipher enc iv tag key = .ok "" := by
  unfold decrypt_document
  rw [if_pos h]

/-- Claim C4, witness: a missing nonce yields the empty result even under a
cipher that would reject everything. -/
theorem decrypt_document_empty_component_witness :
    decrypt_document (fun _ _ _ _ => .error ()) (some "dead") none
      (some "beef") [] = .ok "" :=
  decrypt_document_empty_component (fun _ _ _ _ => .error ())
    (some "dead") none (some "beef") [] (Or.inr (Or.inl rfl))

/-- Claim C10: when all three components are non-empty but at least one is
not valid hex, `decrypt_document` fails with the hex-decoding error — for
every cipher, so authentication is never attempted — and this failure mode
is distinct from the empty-result path and from the authentication and
UTF-8-decoding failure classes. -/
theorem decrypt_document_invalid_hex (cipher : Cipher)
    (enc iv tag : Option String) (key : List Nat)
    (henc : ¬ enc.getD "" = "") (hiv : ¬ iv.getD "" = "")
    (htag : ¬ tag.getD "" = "")
    (hbad : fromhex (enc.getD "") = none ∨ fromhex (iv.getD "") = none ∨
      fromhex (tag.getD "") = none) :
    decrypt_document cipher enc iv tag key = .error .hexError ∧
    (Except.error DecErr.hexError : Except DecErr String) ≠ .ok "" ∧
    DecErr.hexError ≠ DecErr.authError ∧
    DecErr.hexError ≠ DecErr.unicodeError := by
  refine ⟨?_, by simp, by simp, by simp⟩
  unfold decrypt_document
  rw [if_neg (by push_neg; exact ⟨henc, hiv, htag⟩)]
  cases hiv2 : fromhex (iv.getD "") with
  | none => rfl
  | some nonce =>
    cases henc2 : fromhex (enc.getD "") with
    | none => rfl
    | some ct =>
      cases htag2 : fromhex (tag.getD "") with
      | none => rfl
      | some tg =>
        exfalso
        rcases hbad with h | h | h
        · rw [henc2] at h
          exact Option.noConfusion h
        · rw [hiv2] at h
          exact Option.noConfusion h
        · rw [htag2] at h
          exact Option.noConfusion h

/-- Claim C10, witness: with the non-hex nonce `"zz"` (and valid hex
ciphertext and tag), decryption fails with the hex error even under a
cipher that would accept everything. -/
theorem decrypt_document_invalid_hex_witness :
    decrypt_document (fun _ _ _ _ => .ok []) (some "dead") (some "zz")
      (some "beef") [] = .error .hexError ∧
    (Except.error DecErr.hexError : Except DecErr String) ≠ .ok "" ∧
    DecErr.hexError ≠ DecErr.authError ∧
    DecErr.hexError ≠ DecErr.unicodeError :=
  decrypt_document_invalid_hex (fun _ _ _ _ => .ok []) (some "dead")
    (some "zz") (some "beef") [] (by decide) (by decide) (by decide)
    (Or.inr (Or.inl (by decide)))

/-! ## C7: the pipeline as a no-op -/

theorem decryptAll_all_empty (cipher : Cipher) (key : List Nat)
    (docs : List DocRow)
    (h : ∀ row ∈ docs, decrypt_with_key cipher key row = .ok "" ∨
      (decrypt_with_key cipher key row).isOk = false) :
    (∃ e, decryptAll cipher key docs = .error e) ∨
    decryptAll cipher key docs = .ok (List.replicate docs.length "") := by
  induction docs with
  | nil => exact Or.inr rfl
  | cons row rest ih =>
    have hrow := h row (List.mem_cons_self _ _)
    rcases hrow with hok | herr
    · rcases ih (fun r hr => h r (List.mem_cons_of_mem _ hr)) with
        ⟨e, he⟩ | hok2
      · exact Or.inl ⟨e, by rw [decryptAll, hok, he]⟩
      · refine Or.inr ?_
        rw [decryptAll, hok, hok2]
        rfl
    · obtain ⟨e, he⟩ : ∃ e, decrypt_with_key cipher key row = .error e := by
        cases hd : decrypt_with_key cipher key row with
        | error e => exact ⟨e, rfl⟩
        | ok v =>
          rw [hd] at herr
          simp [Except.isOk, Except.toBool] at herr
      exact Or.inl ⟨e, by rw [decryptAll, he]⟩

theorem filter_zip_replicate_empty (docs : List DocRow) :
    ((docs.zip (List.replicate docs.length ""))).filter
      (fun dc => decide (dc.2 ≠ "")) = [] := by
  induction docs with
  | nil => rfl
  | cons d rest ih =>
    have hz : (d :: rest).zip (List.replicate (d :: rest).length "") =
        (d, "") :: rest.zip (List.replicate rest.length "") := rfl
    rw [hz, List.filter_cons]
    simp only [ne_eq, decide_not]
    simp only [decide_True, Bool.not_true, Bool.false_eq_true, if_false]
    simpa [decide_not] using ih

/-- Claim C7: when the document collection is empty — and likewise when
every document fails to decrypt or decrypts to empty content — the run
performs no write: the `positional_index` table is neither cleared nor
inserted into, the run does not reach the completed-write outcome, and no
exception escapes `main` (only `missingKey` raises, and the key is
present). -/
theorem runPipeline_noop (cipher : Cipher) (key : Option String)
    (docs : List DocRow) (hkey : ¬ key.getD "" = "")
    (h : docs = [] ∨ ∀ row ∈ docs,
      decrypt_with_key cipher (normalize_key (key.getD "")) row = .ok "" ∨
      (decrypt_with_key cipher (normalize_key (key.getD "")) row).isOk =
        false) :
    (runPipeline cipher key docs).deletedIndex = false ∧
    (runPipeline cipher key docs).inserted = [] ∧
    (runPipeline cipher key docs).outcome ≠ .missingKey ∧
    (runPipeline cipher key docs).outcome ≠ .completed := by
  rcases h with rfl | hall
  · unfold runPipeline
    rw [if_neg hkey]
    simp
  · unfold runPipeline
    rw [if_neg hkey]
    by_cases hlen : docs.length = 0
    · rw [if_pos hlen]
      simp
    · rw [if_neg hlen]
      rcases decryptAll_all_empty cipher _ docs hall with ⟨e, he⟩ | hok
      · rw [he]
        simp
      · rw [hok]
        simp only [filter_zip_replicate_empty]
        simp

/-- Claim C7, witness: an empty collection (with the key present) is a
clean no-op. -/
theorem runPipeline_noop_witness :
    (runPipeline (fun _ _ _ _ => .error ()) (some "secret")
      []).deletedIndex = false ∧
    (runPipeline (fun _ _ _ _ => .error ()) (some "secret")
      []).inserted = [] ∧
    (runPipeline (fun _ _ _ _ => .error ()) (some "secret")
      []).outcome ≠ .missingKey ∧
    (runPipeline (fun _ _ _ _ => .error ()) (some "secret")
      []).outcome ≠ .completed :=
  runPipeline_noop (fun _ _ _ _ => .error ()) (some "secret") []
    (by decide) (Or.inl rfl)

end PositionalIndex
